import Mathlib

/-!
Verification of the DopleTracker signal-classification pipeline.

The development shallowly embeds the pipeline of `utils.py` (CSV validation
and signal normalization) and `model.py` (feature extraction, scaling, and
classification).  Numeric cells are modelled as `Option ℚ`, with `none`
playing the role of a NaN produced by `pd.to_numeric(errors='coerce')`;
real-valued signal processing (FFT magnitudes, standard deviations) is
modelled over `ℝ` and `ℂ`.
-/

open scoped BigOperators

/-- A raw table cell after numeric coercion: `none` models NaN. -/
abbrev Cell := Option ℚ

/-- A raw table: rows of coerced cells, as read by `pd.read_csv(header=None)`. -/
abbrev RawTable := List (List Cell)

/-- Number of columns of the table (`len(df.columns)`), taken from the first row. -/
def ncols (df : RawTable) : Nat := (df.head?.getD []).length

/-- Number of NaN cells (`df.isna().sum().sum()`). -/
def nanCount (df : RawTable) : Nat :=
  (df.map (fun r => r.countP (fun c => c.isNone))).sum

/-- Embedding of `utils.validate_csv`: the empty check, the minimum-row check
and the non-numeric-ratio check, returning `(is_valid, error_msg)`. -/
def validate_csv (df : RawTable) : Bool × String :=
  let rows := df.length
  let size := rows * ncols df
  if size = 0 then (false, "The file is empty.")
  else if rows < 5 then
    (false, "The file contains too few data points (minimum 5 required).")
  else if (1 / 2 : ℚ) * (size : ℚ) < (nanCount df : ℚ) then
    (false, "Too many non-numeric values in the file.")
  else (true, "")

/-- The numeric (non-NaN) values of a row, in order. -/
def numCells (l : List Cell) : List ℚ := l.filterMap id

/-- Embedding of `np.nanmax`: maximum over the non-NaN values, `none`
(meaning NaN) when there is none. -/
def nanMax (l : List Cell) : Option ℚ :=
  match numCells l with
  | [] => none
  | x :: xs => some (xs.foldl max x)

/-- Embedding of `np.nanmin`. -/
def nanMin (l : List Cell) : Option ℚ :=
  match numCells l with
  | [] => none
  | x :: xs => some (xs.foldl min x)

/-- The normalization peak `max(abs(np.nanmax(a)), abs(np.nanmin(a)))`;
`none` models the NaN obtained on an all-NaN row. -/
def peakOf (l : List Cell) : Option ℚ :=
  match nanMax l, nanMin l with
  | some mx, some mn => some (max |mx| |mn|)
  | _, _ => none

/-- The canonical signal produced by ingestion. -/
structure CanonicalSignal where
  time : List Nat
  amplitude : List Cell
  raw : RawTable
  deriving Repr, DecidableEq

/-- Embedding of `utils.process_signal`: time axis `0..C-1`, amplitude from the
first row, divided by the peak only when `peak > 0`.  A NaN peak (all-NaN row)
is collapsed to `0` by `getD`, which is faithful because both `NaN > 0` and
`0 > 0` leave the amplitude unchanged. -/
def process_signal (df : RawTable) : CanonicalSignal :=
  let time := List.range (ncols df)
  let amplitude := df.head?.getD []
  let p := (peakOf amplitude).getD 0
  let amplitude' :=
    if 0 < p then amplitude.map (Option.map (· / p)) else amplitude
  ⟨time, amplitude', df⟩

lemma process_signal_amplitude (df : RawTable) :
    (process_signal df).amplitude =
      (if 0 < (peakOf (df.head?.getD [])).getD 0 then
        (df.head?.getD []).map
          (Option.map (· / (peakOf (df.head?.getD [])).getD 0))
      else df.head?.getD []) := rfl

-- Basic facts connecting membership in a row with its numeric values.

lemma mem_numCells {l : List Cell} {q : ℚ} : q ∈ numCells l ↔ some q ∈ l := by
  simp [numCells, List.mem_filterMap, id]

lemma le_foldl_max {α : Type*} [LinearOrder α] :
    ∀ (l : List α) (a : α), a ≤ l.foldl max a := by
  intro l
  induction l with
  | nil => intro a; simp
  | cons y ys ih =>
    intro a
    simpa using le_trans (le_max_left a y) (ih (max a y))

lemma mem_le_foldl_max {α : Type*} [LinearOrder α] :
    ∀ (l : List α) (a x : α), x ∈ l → x ≤ l.foldl max a := by
  intro l
  induction l with
  | nil => intro a x hx; simp at hx
  | cons y ys ih =>
    intro a x hx
    rcases List.mem_cons.mp hx with rfl | hx
    · exact le_trans (le_max_right a x) (le_foldl_max ys (max a x))
    · exact ih (max a y) x hx

lemma foldl_min_le {α : Type*} [LinearOrder α] :
    ∀ (l : List α) (a : α), l.foldl min a ≤ a := by
  intro l
  induction l with
  | nil => intro a; simp
  | cons y ys ih =>
    intro a
    simpa using le_trans (ih (min a y)) (min_le_left a y)

lemma foldl_min_le_mem {α : Type*} [LinearOrder α] :
    ∀ (l : List α) (a x : α), x ∈ l → l.foldl min a ≤ x := by
  intro l
  induction l with
  | nil => intro a x hx; simp at hx
  | cons y ys ih =>
    intro a x hx
    rcases List.mem_cons.mp hx with rfl | hx
    · exact le_trans (foldl_min_le ys (min a x)) (min_le_right a x)
    · exact ih (min a y) x hx

lemma peakOf_of_numCells_nil {l : List Cell} (h : numCells l = []) :
    peakOf l = none := by
  simp only [peakOf, nanMax, nanMin, h]

lemma peakOf_of_numCells_cons {l : List Cell} {x : ℚ} {xs : List ℚ}
    (h : numCells l = x :: xs) :
    peakOf l = some (max |xs.foldl max x| |xs.foldl min x|) := by
  simp only [peakOf, nanMax, nanMin, h]

/-- Every numeric value of a row is bounded in absolute value by the peak. -/
lemma abs_le_peak {l : List Cell} {q p : ℚ} (hq : some q ∈ l)
    (hp : peakOf l = some p) : |q| ≤ p := by
  have hq' : q ∈ numCells l := mem_numCells.mpr hq
  rcases hnc : numCells l with _ | ⟨x, xs⟩
  · rw [hnc] at hq'; simp at hq'
  · rw [peakOf_of_numCells_cons hnc] at hp
    have hp' : max |xs.foldl max x| |xs.foldl min x| = p := by
      simpa using hp
    rw [hnc] at hq'
    have hub : q ≤ xs.foldl max x := by
      rcases List.mem_cons.mp hq' with rfl | hmem
      · exact le_foldl_max xs q
      · exact mem_le_foldl_max xs x q hmem
    have hlb : xs.foldl min x ≤ q := by
      rcases List.mem_cons.mp hq' with rfl | hmem
      · exact foldl_min_le xs q
      · exact foldl_min_le_mem xs x q hmem
    have habs : |q| ≤ max |xs.foldl min x| |xs.foldl max x| :=
      abs_le_max_abs_abs hlb hub
    rw [max_comm] at habs
    exact hp' ▸ habs

/-- The peak is never negative: it is a maximum of absolute values. -/
lemma peak_nonneg {l : List Cell} {p : ℚ} (hp : peakOf l = some p) : 0 ≤ p := by
  rcases hnc : numCells l with _ | ⟨x, xs⟩
  · rw [peakOf_of_numCells_nil hnc] at hp; simp at hp
  · rw [peakOf_of_numCells_cons hnc] at hp
    have hp' : max |xs.foldl max x| |xs.foldl min x| = p := by simpa using hp
    rw [← hp']
    exact le_trans (abs_nonneg _) (le_max_left _ _)

/-- Core normalization bound: every numeric value of the processed amplitude
lies in `[-1, 1]` (NaN cells pass through unchanged). -/
lemma process_signal_amplitude_bounded (df : RawTable) {q : ℚ}
    (hq : some q ∈ (process_signal df).amplitude) : -1 ≤ q ∧ q ≤ 1 := by
  rw [process_signal_amplitude] at hq
  set amp := df.head?.getD [] with hamp
  by_cases hpos : 0 < (peakOf amp).getD 0
  · rw [if_pos hpos] at hq
    set p := (peakOf amp).getD 0 with hpdef
    have hpk : peakOf amp = some p := by
      rcases h : peakOf amp with _ | p'
      · rw [hpdef, h] at hpos; simp at hpos
      · rw [hpdef, h]; simp
    obtain ⟨c, hc, hcq⟩ := List.mem_map.mp hq
    rcases c with _ | x
    · simp at hcq
    · simp only [Option.map_some', Option.some.injEq] at hcq
      subst hcq
      have hx : |x| ≤ p := abs_le_peak hc hpk
      constructor
      · rw [neg_le, ← neg_div, div_le_one hpos]
        exact le_trans (neg_le_abs x) hx
      · rw [div_le_one hpos]
        exact le_trans (le_abs_self x) hx
  · rw [if_neg hpos] at hq
    rcases h : peakOf amp with _ | p'
    · -- a NaN peak means the row has no numeric value at all
      exfalso
      have hq' : q ∈ numCells amp := mem_numCells.mpr hq
      rcases hnc : numCells amp with _ | ⟨x, xs⟩
      · rw [hnc] at hq'; simp at hq'
      · rw [peakOf_of_numCells_cons hnc] at h; simp at h
    · have hple : p' ≤ 0 := by
        rw [h] at hpos; simpa using le_of_not_lt hpos
      have hx : |q| ≤ p' := abs_le_peak hq h
      have hq0 : q = 0 :=
        abs_eq_zero.mp (le_antisymm (le_trans hx hple) (abs_nonneg q))
      subst hq0
      constructor <;> norm_num

/-!
Feature extraction (`model.extract_features`).  The amplitude is modelled as a
list of reals (the claims about extraction concern NaN-free signals); the DFT
magnitude spectrum is `Complex.abs` of the discrete Fourier transform, and a
float division that numpy turns into a non-finite value is modelled by
`Option ℝ` with `none` for the NaN produced by `0 / 0`.
-/

/-- Arithmetic mean (`np.mean`). -/
noncomputable def meanR (l : List ℝ) : ℝ := l.sum / l.length

/-- Population variance (`np.var`, the square of `np.std`). -/
noncomputable def varR (l : List ℝ) : ℝ :=
  ((l.map (fun x => (x - meanR l) ^ 2)).sum) / l.length

/-- Population standard deviation (`np.std`). -/
noncomputable def stdR (l : List ℝ) : ℝ := Real.sqrt (varR l)

/-- Maximum of a list (`np.max`); `0` on the empty list, which the pipeline
never reaches. -/
noncomputable def listMaxR : List ℝ → ℝ
  | [] => 0
  | x :: xs => xs.foldl max x

/-- Bin `j` of the discrete Fourier transform `np.fft.fft` of a real signal. -/
noncomputable def dft (a : List ℝ) (j : ℕ) : ℂ :=
  ∑ k ∈ Finset.range a.length,
    (a.getD k 0 : ℂ) *
      Complex.exp (-(2 * (Real.pi : ℂ) * Complex.I * j * k) / a.length)

/-- The magnitude spectrum `np.abs(np.fft.fft(amplitude))`. -/
noncomputable def fftMag (a : List ℝ) : List ℝ :=
  (List.range a.length).map (fun j => Complex.abs (dft a j))

/-- The positive-frequency half-band `fft_result[1 : N//2]`. -/
noncomputable def posSpectrum (a : List ℝ) : List ℝ :=
  ((fftMag a).drop 1).take (a.length / 2 - 1)

/-- State of `np.argmax` folded over a list: current index, best index and
best value; strict `<` keeps the first occurrence of the maximum. -/
noncomputable def argmaxGo : List ℝ → ℕ → ℕ × ℝ → ℕ × ℝ
  | [], _, p => p
  | x :: xs, i, (bi, bv) =>
      if bv < x then argmaxGo xs (i + 1) (i, x) else argmaxGo xs (i + 1) (bi, bv)

/-- Index of the first maximum (`np.argmax`); `0` on the empty list, where
numpy raises instead — callers guard that case. -/
noncomputable def argmaxIdx : List ℝ → ℕ
  | [] => 0
  | x :: xs => (argmaxGo xs 1 (0, x)).1

/-- First difference `np.diff`: `d[i] = a[i+1] - a[i]`. -/
def diffR (l : List ℝ) : List ℝ := List.zipWith (fun b a => b - a) (l.drop 1) l

/-- Sign bit (`np.signbit`): true exactly on negative values. -/
noncomputable def signbit (x : ℝ) : Bool := if x < 0 then true else false

/-- Count of sign changes of the first difference:
`np.sum(np.diff(np.signbit(np.diff(amplitude))))`, where `np.diff` on a
boolean array is the pairwise exclusive-or. -/
noncomputable def zeroCross (l : List ℝ) : ℕ :=
  (List.zipWith (fun b a => b != a)
    (((diffR l).map signbit).drop 1) ((diffR l).map signbit)).count true

/-- Float division whose NaN result (numpy `0 / 0`, the only non-finite case
reached by this pipeline) is modelled by `none`. -/
noncomputable def pyDiv (a b : ℝ) : Option ℝ := if b = 0 then none else some (a / b)

/-- Embedding of `model.extract_features`.  `none` models the `ValueError`
numpy raises in `np.argmax` on the empty positive-frequency slice. -/
noncomputable def extract_features (amplitude : List ℝ) : Option (List (Option ℝ)) :=
  let fft_result := fftMag amplitude
  let slice := (fft_result.drop 1).take (amplitude.length / 2 - 1)
  if slice.isEmpty then none
  else
    let mean_amp := meanR amplitude
    let std_amp := stdR amplitude
    let max_amp := listMaxR amplitude
    let dominant_freq := argmaxIdx slice + 1
    let freq_energy := slice.sum
    let zero_crossings := zeroCross amplitude
    some [some mean_amp, some std_amp, some (dominant_freq : ℝ),
          pyDiv (listMaxR fft_result) (meanR fft_result),
          pyDiv (zero_crossings : ℝ) (amplitude.length : ℝ),
          some freq_energy, some max_amp]

/-!
Spec-side feature names, following the fixed order of spec §3/§4.2; each is a
direct reading of the corresponding step of the spec's algorithm, to be
compared against `extract_features` in the refinement theorem for C2.
-/

/-- Spec §4.2 step 1. -/
noncomputable def mean_amplitude (a : List ℝ) : ℝ := meanR a

/-- Spec §4.2 step 2. -/
noncomputable def std_amplitude (a : List ℝ) : ℝ := stdR a

/-- Spec §4.2 step 3: `argmax(magnitude[1 : N//2]) + 1`. -/
noncomputable def dominant_frequency_index (a : List ℝ) : ℕ :=
  argmaxIdx (((fftMag a).drop 1).take (a.length / 2 - 1)) + 1

/-- Spec §4.2 step 4: `max(magnitude) / mean(magnitude)` over the full
spectrum. -/
noncomputable def peak_to_mean_spectral_ratio (a : List ℝ) : Option ℝ :=
  pyDiv (listMaxR (fftMag a)) (meanR (fftMag a))

/-- Spec §4.2 step 5: sign changes of the first difference divided by `N`. -/
noncomputable def zero_crossing_rate (a : List ℝ) : Option ℝ :=
  pyDiv (zeroCross a : ℝ) (a.length : ℝ)

/-- Spec §4.2 step 6: sum of the positive-frequency half-band magnitudes. -/
noncomputable def spectral_energy (a : List ℝ) : ℝ := (posSpectrum a).sum

/-- Spec §4.2 step 7. -/
noncomputable def max_amplitude (a : List ℝ) : ℝ := listMaxR a

lemma fftMag_length (a : List ℝ) : (fftMag a).length = a.length := by
  simp [fftMag]

lemma posSpectrum_length (a : List ℝ) :
    (posSpectrum a).length = min (a.length / 2 - 1) (a.length - 1) := by
  simp [posSpectrum, fftMag_length]

lemma posSpectrum_isEmpty_iff (a : List ℝ) :
    (posSpectrum a).isEmpty = true ↔ a.length ≤ 3 := by
  rw [List.isEmpty_iff_length_eq_zero, posSpectrum_length]
  omega

/-- Unfolding of `extract_features` on a signal long enough for the
positive-frequency slice to be nonempty. -/
lemma extract_features_eq {a : List ℝ} (h : 4 ≤ a.length) :
    extract_features a =
      some [some (meanR a), some (stdR a), some ((argmaxIdx (posSpectrum a) + 1 : ℕ) : ℝ),
        pyDiv (listMaxR (fftMag a)) (meanR (fftMag a)),
        pyDiv (zeroCross a : ℝ) (a.length : ℝ),
        some (posSpectrum a).sum, some (listMaxR a)] := by
  have hne : ¬((posSpectrum a).isEmpty = true) := by
    rw [posSpectrum_isEmpty_iff]; omega
  simp only [extract_features, posSpectrum] at *
  rw [if_neg hne]

/-- On signals shorter than 4 samples the positive-frequency slice is empty
and extraction fails (`np.argmax` raises). -/
lemma extract_features_short {a : List ℝ} (h : a.length ≤ 3) :
    extract_features a = none := by
  have he : (posSpectrum a).isEmpty = true := (posSpectrum_isEmpty_iff a).mpr h
  simp only [extract_features, posSpectrum] at *
  rw [if_pos he]

/-!
DFT facts for constant and all-zero signals: bin 0 of a constant signal is
`n * c` and every other bin vanishes (a geometric sum over a nontrivial root
of unity).
-/

lemma exp_term_pow (n j k : ℕ) :
    Complex.exp (-(2 * (Real.pi : ℂ) * Complex.I * j * k) / n) =
      Complex.exp (-(2 * (Real.pi : ℂ) * Complex.I * j) / n) ^ k := by
  rw [← Complex.exp_nat_mul]
  congr 1
  ring

lemma root_sum_eq_zero {n j : ℕ} (hn : 0 < n) (hj0 : 0 < j) (hjn : j < n) :
    ∑ k ∈ Finset.range n,
      Complex.exp (-(2 * (Real.pi : ℂ) * Complex.I * j * k) / n) = 0 := by
  have hn' : (n : ℂ) ≠ 0 := Nat.cast_ne_zero.mpr hn.ne'
  have h2pi : (2 * (Real.pi : ℂ) * Complex.I) ≠ 0 :=
    mul_ne_zero (mul_ne_zero two_ne_zero (Complex.ofReal_ne_zero.mpr Real.pi_ne_zero))
      Complex.I_ne_zero
  set r : ℂ := Complex.exp (-(2 * (Real.pi : ℂ) * Complex.I * j) / n) with hr
  have hsum : ∑ k ∈ Finset.range n,
      Complex.exp (-(2 * (Real.pi : ℂ) * Complex.I * j * k) / n) =
      ∑ k ∈ Finset.range n, r ^ k :=
    Finset.sum_congr rfl (fun k _ => exp_term_pow n j k)
  have hrn : r ^ n = 1 := by
    rw [hr, ← Complex.exp_nat_mul]
    have harg : (n : ℂ) * (-(2 * (Real.pi : ℂ) * Complex.I * j) / n) =
        ((-(j : ℤ) : ℤ) : ℂ) * (2 * (Real.pi : ℂ) * Complex.I) := by
      field_simp
      ring
    rw [harg, Complex.exp_int_mul_two_pi_mul_I]
  have hr1 : r ≠ 1 := by
    intro h
    obtain ⟨m, hm⟩ := Complex.exp_eq_one_iff.mp (hr ▸ h)
    have hm' := congrArg (fun z => z * (n : ℂ)) hm
    simp only at hm'
    rw [div_mul_cancel₀ _ hn'] at hm'
    have hgoal : (2 * (Real.pi : ℂ) * Complex.I) * (-(j : ℂ)) =
        (2 * (Real.pi : ℂ) * Complex.I) * ((m : ℂ) * (n : ℂ)) := by
      linear_combination hm'
    have hcast : (-(j : ℂ)) = (m : ℂ) * (n : ℂ) := mul_left_cancel₀ h2pi hgoal
    have hint : (-(j : ℤ) : ℤ) = m * n := by exact_mod_cast hcast
    have hdvd : (n : ℤ) ∣ (j : ℤ) := ⟨-m, by linarith⟩
    have hdvd' : n ∣ j := Int.ofNat_dvd.mp (by exact_mod_cast hdvd)
    have := Nat.le_of_dvd hj0 hdvd'
    omega
  rw [hsum, geom_sum_eq hr1, hrn]
  simp

lemma replicate_getD {α : Type*} (n k : ℕ) (c d : α) :
    (List.replicate n c).getD k d = if k < n then c else d := by
  rw [List.getD_eq_getElem?_getD, List.getElem?_replicate]
  by_cases h : k < n <;> simp [h]

lemma dft_replicate_bin_zero (n : ℕ) (c : ℝ) :
    dft (List.replicate n c) 0 = (n : ℂ) * (c : ℂ) := by
  unfold dft
  rw [List.length_replicate]
  have : ∀ k ∈ Finset.range n,
      ((List.replicate n c).getD k 0 : ℂ) *
        Complex.exp (-(2 * (Real.pi : ℂ) * Complex.I * (0 : ℕ) * k) / n) = (c : ℂ) := by
    intro k hk
    rw [replicate_getD, if_pos (Finset.mem_range.mp hk)]
    norm_num
  rw [Finset.sum_congr rfl this, Finset.sum_const, Finset.card_range]
  simp [nsmul_eq_mul]

lemma dft_replicate_bin_ne_zero (c : ℝ) {n j : ℕ} (hn : 0 < n) (hj0 : 0 < j)
    (hjn : j < n) : dft (List.replicate n c) j = 0 := by
  unfold dft
  rw [List.length_replicate]
  have : ∀ k ∈ Finset.range n,
      ((List.replicate n c).getD k 0 : ℂ) *
        Complex.exp (-(2 * (Real.pi : ℂ) * Complex.I * j * k) / n) =
      (c : ℂ) * Complex.exp (-(2 * (Real.pi : ℂ) * Complex.I * j * k) / n) := by
    intro k hk
    rw [replicate_getD, if_pos (Finset.mem_range.mp hk)]
  rw [Finset.sum_congr rfl this, ← Finset.mul_sum, root_sum_eq_zero hn hj0 hjn,
    mul_zero]

lemma fftMag_replicate {n : ℕ} (hn : 0 < n) (c : ℝ) :
    fftMag (List.replicate n c) = ((n : ℝ) * |c|) :: List.replicate (n - 1) 0 := by
  obtain ⟨m, rfl⟩ : ∃ m, n = m + 1 := ⟨n - 1, (Nat.succ_pred_eq_of_pos hn).symm⟩
  unfold fftMag
  rw [List.length_replicate, List.range_succ_eq_map, List.map_cons]
  congr 1
  · rw [dft_replicate_bin_zero]
    rw [map_mul, Complex.abs_natCast, Complex.abs_ofReal]
  · rw [List.map_map, List.eq_replicate_iff]
    refine ⟨by simp, ?_⟩
    intro b hb
    obtain ⟨i, hi, rfl⟩ := List.mem_map.mp hb
    have hi' : i < m := List.mem_range.mp hi
    simp only [Function.comp]
    rw [dft_replicate_bin_ne_zero c (Nat.succ_pos m) (Nat.succ_pos i)
      (Nat.succ_lt_succ hi')]
    exact map_zero Complex.abs

lemma fftMag_replicate_zero (n : ℕ) :
    fftMag (List.replicate n (0 : ℝ)) = List.replicate n 0 := by
  rw [List.eq_replicate_iff]
  constructor
  · simp [fftMag]
  · intro b hb
    obtain ⟨j, _, rfl⟩ := List.mem_map.mp hb
    have hdft : dft (List.replicate n (0 : ℝ)) j = 0 := by
      unfold dft
      refine Finset.sum_eq_zero fun k _ => ?_
      rw [replicate_getD]
      by_cases h : k < n <;> simp [h]
    rw [hdft]
    exact map_zero Complex.abs

/-!
Feature values on constant and all-zero signals.
-/

lemma foldl_max_eq_of_le {α : Type*} [LinearOrder α] :
    ∀ (l : List α) (a : α), (∀ x ∈ l, x ≤ a) → l.foldl max a = a := by
  intro l
  induction l with
  | nil => intro a _; rfl
  | cons y ys ih =>
    intro a h
    have hy : y ≤ a := h y (List.mem_cons_self y ys)
    rw [List.foldl_cons, max_eq_left hy]
    exact ih a (fun x hx => h x (List.mem_cons_of_mem y hx))

lemma listMaxR_cons_of_le {x : ℝ} {l : List ℝ} (h : ∀ y ∈ l, y ≤ x) :
    listMaxR (x :: l) = x := foldl_max_eq_of_le l x h

lemma listMaxR_replicate {n : ℕ} (hn : 0 < n) (c : ℝ) :
    listMaxR (List.replicate n c) = c := by
  obtain ⟨m, rfl⟩ : ∃ m, n = m + 1 := ⟨n - 1, (Nat.succ_pred_eq_of_pos hn).symm⟩
  rw [List.replicate_succ]
  exact listMaxR_cons_of_le (fun y hy => le_of_eq (List.eq_of_mem_replicate hy))

lemma meanR_replicate {n : ℕ} (hn : 0 < n) (c : ℝ) :
    meanR (List.replicate n c) = c := by
  unfold meanR
  rw [List.sum_replicate, List.length_replicate, nsmul_eq_mul,
    mul_div_cancel_left₀ _ (Nat.cast_ne_zero.mpr hn.ne' : (n : ℝ) ≠ 0)]

lemma varR_replicate {n : ℕ} (hn : 0 < n) (c : ℝ) :
    varR (List.replicate n c) = 0 := by
  unfold varR
  rw [meanR_replicate hn, List.map_replicate, List.sum_replicate]
  simp

lemma stdR_replicate {n : ℕ} (hn : 0 < n) (c : ℝ) :
    stdR (List.replicate n c) = 0 := by
  rw [stdR, varR_replicate hn, Real.sqrt_zero]

lemma argmaxGo_no_improve :
    ∀ (l : List ℝ) (i bi : ℕ) (bv : ℝ), (∀ x ∈ l, ¬ bv < x) →
      argmaxGo l i (bi, bv) = (bi, bv) := by
  intro l
  induction l with
  | nil => intro i bi bv _; rfl
  | cons x xs ih =>
    intro i bi bv h
    rw [argmaxGo, if_neg (h x (List.mem_cons_self x xs))]
    exact ih (i + 1) bi bv (fun y hy => h y (List.mem_cons_of_mem x hy))

lemma argmaxIdx_replicate_zero {m : ℕ} (hm : 0 < m) :
    argmaxIdx (List.replicate m (0 : ℝ)) = 0 := by
  obtain ⟨k, rfl⟩ : ∃ k, m = k + 1 := ⟨m - 1, (Nat.succ_pred_eq_of_pos hm).symm⟩
  rw [List.replicate_succ, argmaxIdx,
    argmaxGo_no_improve _ 1 0 0
      (fun x hx => by rw [List.eq_of_mem_replicate hx]; exact lt_irrefl 0)]

lemma signbit_zero : signbit 0 = false := by
  rw [signbit, if_neg (lt_irrefl (0 : ℝ))]

lemma zeroCross_replicate (n : ℕ) (c : ℝ) :
    zeroCross (List.replicate n c) = 0 := by
  unfold zeroCross diffR
  rw [List.drop_replicate, List.zipWith_replicate, List.map_replicate, sub_self,
    signbit_zero, List.drop_replicate, List.zipWith_replicate]
  simp [List.count_replicate]

lemma posSpectrum_replicate {n : ℕ} (hn : 0 < n) (c : ℝ) :
    posSpectrum (List.replicate n c) = List.replicate (n / 2 - 1) (0 : ℝ) := by
  unfold posSpectrum
  rw [fftMag_replicate hn, List.drop_one, List.tail_cons, List.take_replicate,
    List.length_replicate]
  congr 1
  omega

lemma posSpectrum_replicate_zero {n : ℕ} :
    posSpectrum (List.replicate n (0 : ℝ)) = List.replicate (n / 2 - 1) (0 : ℝ) := by
  unfold posSpectrum
  rw [fftMag_replicate_zero, List.drop_replicate, List.take_replicate,
    List.length_replicate]
  congr 1
  omega

/-- Feature vector of a nonzero constant signal: mean `c`, std `0`,
dominant-frequency index `1`, peak-to-mean spectral ratio `n`, zero-crossing
rate `0`, spectral energy `0` and maximum `c`. -/
lemma extract_features_replicate {n : ℕ} (c : ℝ) (hn : 4 ≤ n) (hc : c ≠ 0) :
    extract_features (List.replicate n c) =
      some [some c, some 0, some 1, some (n : ℝ), some 0, some 0, some c] := by
  have hn0 : 0 < n := by omega
  have hlen : 4 ≤ (List.replicate n c).length := by
    rw [List.length_replicate]; exact hn
  rw [extract_features_eq hlen]
  have hmag := fftMag_replicate hn0 c
  have hpos : posSpectrum (List.replicate n c) = List.replicate (n / 2 - 1) (0 : ℝ) :=
    posSpectrum_replicate hn0 c
  have hmax : listMaxR (fftMag (List.replicate n c)) = (n : ℝ) * |c| := by
    rw [hmag]
    exact listMaxR_cons_of_le (fun y hy => by
      rw [List.eq_of_mem_replicate hy]
      positivity)
  have hmean : meanR (fftMag (List.replicate n c)) = |c| := by
    rw [hmag]
    unfold meanR
    rw [List.sum_cons, List.sum_replicate, smul_zero, add_zero,
      List.length_cons, List.length_replicate, Nat.sub_add_cancel hn0,
      mul_div_cancel_left₀ _ (Nat.cast_ne_zero.mpr hn0.ne' : (n : ℝ) ≠ 0)]
  have habs : |c| ≠ 0 := abs_ne_zero.mpr hc
  rw [meanR_replicate hn0, stdR_replicate hn0, hpos, hmax, hmean,
    listMaxR_replicate hn0, zeroCross_replicate,
    argmaxIdx_replicate_zero (by omega : 0 < n / 2 - 1)]
  rw [List.sum_replicate, smul_zero]
  rw [pyDiv, if_neg habs, pyDiv,
    if_neg (Nat.cast_ne_zero.mpr (by rw [List.length_replicate]; omega :
      (List.replicate n c).length ≠ 0) : ((List.replicate n c).length : ℝ) ≠ 0)]
  rw [mul_div_assoc, div_self habs, mul_one]
  norm_num

/-- Feature vector of the all-zero signal: the peak-to-mean spectral ratio is
the NaN produced by `0 / 0`; no other feature raises. -/
lemma extract_features_zero_signal {n : ℕ} (hn : 4 ≤ n) :
    extract_features (List.replicate n (0 : ℝ)) =
      some [some 0, some 0, some 1, none, some 0, some 0, some 0] := by
  have hn0 : 0 < n := by omega
  have hlen : 4 ≤ (List.replicate n (0 : ℝ)).length := by
    rw [List.length_replicate]; exact hn
  rw [extract_features_eq hlen]
  have hmean : meanR (fftMag (List.replicate n (0 : ℝ))) = 0 := by
    rw [fftMag_replicate_zero]
    exact meanR_replicate hn0 0
  rw [meanR_replicate hn0, stdR_replicate hn0, posSpectrum_replicate_zero,
    listMaxR_replicate hn0, zeroCross_replicate,
    argmaxIdx_replicate_zero (by omega : 0 < n / 2 - 1), hmean]
  rw [List.sum_replicate, smul_zero]
  rw [pyDiv, if_pos rfl, pyDiv,
    if_neg (Nat.cast_ne_zero.mpr (by rw [List.length_replicate]; omega :
      (List.replicate n (0 : ℝ)).length ≠ 0) : ((List.replicate n (0 : ℝ)).length : ℝ) ≠ 0)]
  norm_num

/-!
Scaler and classifier.  The scaler and the random-forest classifier live in
scikit-learn rather than in this repository, so they are modelled from the
spec (§4.3, §4.4); the wrapping logic of `model.predict_class` — argmax over
the probabilities, class lookup, `probability * 100` — is translated from the
source.
-/

/-- Modelled from the spec: the bootstrap training set of `initialize_model`
(5 drone-like and 5 bird-like exemplar vectors), copied from `model.py`. -/
def X_train : List (List ℝ) :=
  [[0.8, 5.2, 120, 0.9, 0.7, 150, 0.8],
   [0.7, 4.8, 115, 0.85, 0.75, 145, 0.75],
   [0.75, 5.0, 125, 0.88, 0.72, 155, 0.78],
   [0.82, 5.3, 118, 0.92, 0.68, 152, 0.81],
   [0.79, 5.1, 122, 0.89, 0.71, 148, 0.79],
   [0.3, 2.5, 60, 0.4, 0.35, 80, 0.3],
   [0.25, 2.3, 65, 0.45, 0.38, 75, 0.28],
   [0.28, 2.4, 63, 0.42, 0.36, 78, 0.29],
   [0.31, 2.6, 62, 0.41, 0.37, 82, 0.31],
   [0.27, 2.5, 64, 0.43, 0.34, 79, 0.30]]

/-- Column `j` of a feature matrix. -/
def column (X : List (List ℝ)) (j : ℕ) : List ℝ := X.map (fun r => r.getD j 0)

/-- Modelled from the spec: the per-column scale fitted by the
`StandardScaler` — the standard deviation, with a zero substituted by `1`
to avoid division by zero (§4.3). -/
noncomputable def scaleOf (l : List ℝ) : ℝ :=
  if varR l = 0 then 1 else Real.sqrt (varR l)

/-- Modelled from the spec: the column view of `scaler.transform` on the
fitted data — `(x - mean) / std` per column (§4.3). -/
noncomputable def standardize (l : List ℝ) : List ℝ :=
  l.map (fun x => (x - meanR l) / scaleOf l)

/-- Modelled from the spec: `scaler.transform` on a single feature vector,
given the fitted per-column means and scales; a NaN feature (`none`) stays
NaN through the affine map (§4.3). -/
noncomputable def transformOpt (means scales : List ℝ) (fs : List (Option ℝ)) :
    List (Option ℝ) :=
  List.zipWith (fun f ms => f.map (fun v => (v - ms.1) / ms.2)) fs (means.zip scales)

/-- Turning a feature vector with possible NaNs into a clean one; `none`
models the `ValueError` scikit-learn raises on non-finite input. -/
def sequenceOpt : List (Option ℝ) → Option (List ℝ)
  | [] => some []
  | none :: _ => none
  | some x :: rest => (sequenceOpt rest).map (fun v => x :: v)

/-- Amplitude cells converted to reals; `none` when the amplitude contains a
NaN, in which case every downstream statistic is NaN and the classifier
raises on it. -/
noncomputable def ampToReal : List Cell → Option (List ℝ)
  | [] => some []
  | none :: _ => none
  | some q :: rest => (ampToReal rest).map (fun v => (q : ℝ) :: v)

/-- Tail of `model.predict_class`, translated from the source:
`class_index = np.argmax(probabilities)`,
`class_label = model.classes_[class_index]`,
`confidence = probabilities[class_index] * 100`. -/
noncomputable def predict_from_proba (classes : List String) (probs : List ℝ) :
    Option (String × ℝ) :=
  match probs with
  | [] => none
  | _ :: _ =>
    (classes[argmaxIdx probs]?).map
      (fun lab => (lab, probs.getD (argmaxIdx probs) 0 * 100))

/-- The process-wide model state fitted once by `initialize_model`: the
scaler statistics and, modelled from the spec, the fitted forest's
deterministic probability map and its class list (fixed seed, immutable
after startup). -/
structure ModelState where
  means : List ℝ
  scales : List ℝ
  proba : List ℝ → List ℝ
  classes : List String

/-- Embedding of `model.predict_class`: extraction, scaling, probability
prediction, argmax.  Every exception path (empty argmax slice, NaN reaching
the classifier) is `none`. -/
noncomputable def predict_classS (s : ModelState) (amp : List Cell) :
    Option (String × ℝ) :=
  (ampToReal amp).bind fun a =>
    (extract_features a).bind fun feats =>
      (sequenceOpt (transformOpt s.means s.scales feats)).bind fun v =>
        predict_from_proba s.classes (s.proba v)

/-- The classification service (spec §4.5): `process_signal` then
`predict_class`, with the model state threaded explicitly; the state comes
back unchanged because the predict path only reads the module-level scaler
and model. -/
noncomputable def classify (s : ModelState) (df : RawTable) :
    Option (String × ℝ) × ModelState :=
  (predict_classS s (process_signal df).amplitude, s)

/-!
Correctness of the argmax fold: the returned value is the list maximum and
the returned index points at it.
-/

lemma argmaxGo_snd : ∀ (l : List ℝ) (i : ℕ) (p : ℕ × ℝ),
    (argmaxGo l i p).2 = l.foldl max p.2 := by
  intro l
  induction l with
  | nil => intro i p; rfl
  | cons x xs ih =>
    intro i p
    rcases p with ⟨bi, bv⟩
    rw [argmaxGo]
    by_cases h : bv < x
    · rw [if_pos h, ih, List.foldl_cons, max_eq_right h.le]
    · rw [if_neg h, ih, List.foldl_cons, max_eq_left (le_of_not_lt h)]

lemma argmaxGo_get : ∀ (l : List ℝ) (i bi : ℕ) (bv : ℝ) (L : List ℝ),
    L[bi]? = some bv → (∀ k : ℕ, L[i + k]? = l[k]?) →
    L[(argmaxGo l i (bi, bv)).1]? = some ((argmaxGo l i (bi, bv)).2) := by
  intro l
  induction l with
  | nil => intro i bi bv L h1 _; exact h1
  | cons x xs ih =>
    intro i bi bv L h1 h2
    have hk0 : L[i]? = some x := by
      have := h2 0
      rwa [Nat.add_zero, List.getElem?_cons_zero] at this
    have hshift : ∀ k : ℕ, L[(i + 1) + k]? = xs[k]? := by
      intro k
      have := h2 (k + 1)
      rwa [List.getElem?_cons_succ, show i + (k + 1) = (i + 1) + k by omega] at this
    rw [argmaxGo]
    by_cases h : bv < x
    · rw [if_pos h]
      exact ih (i + 1) i x L hk0 hshift
    · rw [if_neg h]
      exact ih (i + 1) bi bv L h1 hshift

lemma argmaxIdx_get {l : List ℝ} (h : l ≠ []) :
    l[argmaxIdx l]? = some (listMaxR l) := by
  rcases l with _ | ⟨x, xs⟩
  · exact absurd rfl h
  · have hget : (x :: xs)[(argmaxGo xs 1 (0, x)).1]? =
        some ((argmaxGo xs 1 (0, x)).2) := by
      refine argmaxGo_get xs 1 0 x (x :: xs) ?_ ?_
      · exact List.getElem?_cons_zero
      · intro k
        rw [show 1 + k = k + 1 by omega, List.getElem?_cons_succ]
    rw [argmaxIdx, hget, argmaxGo_snd]
    rfl

lemma argmaxIdx_lt_length {l : List ℝ} (h : l ≠ []) : argmaxIdx l < l.length := by
  have := argmaxIdx_get h
  exact List.getElem?_eq_some_iff.mp this |>.1

/-!
Standard-scaling identity: on any column with nonzero variance, the
standardized values have mean `0`, variance `1` and standard deviation `1`.
-/

lemma sum_map_affine (m s : ℝ) :
    ∀ l : List ℝ, (l.map (fun x => (x - m) / s)).sum =
      (l.sum - l.length * m) / s := by
  intro l
  induction l with
  | nil => simp
  | cons x xs ih =>
    rw [List.map_cons, List.sum_cons, ih, div_add_div_same, List.sum_cons,
      List.length_cons]
    congr 1
    push_cast
    ring

lemma sum_map_div (f : ℝ → ℝ) (c : ℝ) :
    ∀ l : List ℝ, (l.map (fun x => f x / c)).sum = (l.map f).sum / c := by
  intro l
  induction l with
  | nil => simp
  | cons x xs ih =>
    rw [List.map_cons, List.sum_cons, ih, List.map_cons, List.sum_cons,
      div_add_div_same]

lemma mean_of_affine_map {l : List ℝ} (hl : l ≠ []) (s : ℝ) :
    meanR (l.map (fun x => (x - meanR l) / s)) = 0 := by
  have hn : (l.length : ℝ) ≠ 0 := by
    simpa using (List.length_pos.mpr hl).ne'
  unfold meanR
  rw [List.length_map, sum_map_affine]
  rw [mul_div_cancel₀ _ hn]
  simp

lemma meanR_standardize {l : List ℝ} (hl : l ≠ []) : meanR (standardize l) = 0 :=
  mean_of_affine_map hl (scaleOf l)

lemma varR_standardize {l : List ℝ} (hl : l ≠ []) :
    varR (standardize l) = varR l / (scaleOf l) ^ 2 := by
  unfold varR
  rw [meanR_standardize hl]
  unfold standardize
  rw [List.length_map, List.map_map]
  have hfun : ((fun x => (x - 0) ^ 2) ∘ fun x => (x - meanR l) / scaleOf l) =
      fun x => ((x - meanR l) ^ 2) / (scaleOf l) ^ 2 := by
    funext x
    simp [Function.comp, div_pow]
  rw [hfun, sum_map_div (fun x => (x - meanR l) ^ 2) ((scaleOf l) ^ 2),
    div_right_comm]

lemma varR_nonneg (l : List ℝ) : 0 ≤ varR l := by
  unfold varR
  apply div_nonneg
  · exact List.sum_nonneg (by
      intro x hx
      obtain ⟨y, _, rfl⟩ := List.mem_map.mp hx
      positivity)
  · positivity

lemma sum_sq_eq_zero_all_zero :
    ∀ l : List ℝ, (∀ x ∈ l, 0 ≤ x) → l.sum = 0 → ∀ x ∈ l, x = 0 := by
  intro l
  induction l with
  | nil => intro _ _ x hx; simp at hx
  | cons y ys ih =>
    intro hpos hsum x hx
    rw [List.sum_cons] at hsum
    have hy : 0 ≤ y := hpos y (List.mem_cons_self y ys)
    have hys : 0 ≤ ys.sum := List.sum_nonneg
      (fun z hz => hpos z (List.mem_cons_of_mem y hz))
    have hy0 : y = 0 := by linarith
    have hsum0 : ys.sum = 0 := by linarith
    rcases List.mem_cons.mp hx with rfl | hx
    · exact hy0
    · exact ih (fun z hz => hpos z (List.mem_cons_of_mem y hz)) hsum0 x hx

lemma varR_ne_zero_of_mem_ne {l : List ℝ} {a b : ℝ} (ha : a ∈ l) (hb : b ∈ l)
    (hab : a ≠ b) : varR l ≠ 0 := by
  intro hvar
  have hl : l ≠ [] := List.ne_nil_of_mem ha
  have hn : (l.length : ℝ) ≠ 0 := by
    simpa using (List.length_pos.mpr hl).ne'
  unfold varR at hvar
  rcases div_eq_zero_iff.mp hvar with hsum | hlen
  · have hall := sum_sq_eq_zero_all_zero _ (by
      intro x hx
      obtain ⟨y, _, rfl⟩ := List.mem_map.mp hx
      positivity) hsum
    have ha' : (a - meanR l) ^ 2 = 0 :=
      hall _ (List.mem_map_of_mem _ ha)
    have hb' : (b - meanR l) ^ 2 = 0 :=
      hall _ (List.mem_map_of_mem _ hb)
    have haa : a = meanR l := by nlinarith
    have hbb : b = meanR l := by nlinarith
    exact hab (haa.trans hbb.symm)
  · exact hn hlen

lemma varR_standardize_eq_one {l : List ℝ} (hl : l ≠ []) (hv : varR l ≠ 0) :
    varR (standardize l) = 1 := by
  rw [varR_standardize hl]
  unfold scaleOf
  rw [if_neg hv, Real.sq_sqrt (varR_nonneg l), div_self hv]

lemma stdR_standardize_eq_one {l : List ℝ} (hl : l ≠ []) (hv : varR l ≠ 0) :
    stdR (standardize l) = 1 := by
  rw [stdR, varR_standardize_eq_one hl hv, Real.sqrt_one]

lemma X_train_col_var_ne_zero : ∀ j : ℕ, j < 7 → varR (column X_train j) ≠ 0 := by
  intro j hj
  interval_cases j
  · exact varR_ne_zero_of_mem_ne (a := 0.8) (b := 0.3)
      (by simp [column, X_train]) (by simp [column, X_train]) (by norm_num)
  · exact varR_ne_zero_of_mem_ne (a := 5.2) (b := 2.5)
      (by simp [column, X_train]) (by simp [column, X_train]) (by norm_num)
  · exact varR_ne_zero_of_mem_ne (a := 120) (b := 60)
      (by simp [column, X_train]) (by simp [column, X_train]) (by norm_num)
  · exact varR_ne_zero_of_mem_ne (a := 0.9) (b := 0.4)
      (by simp [column, X_train]) (by simp [column, X_train]) (by norm_num)
  · exact varR_ne_zero_of_mem_ne (a := 0.7) (b := 0.35)
      (by simp [column, X_train]) (by simp [column, X_train]) (by norm_num)
  · exact varR_ne_zero_of_mem_ne (a := 150) (b := 80)
      (by simp [column, X_train]) (by simp [column, X_train]) (by norm_num)
  · exact varR_ne_zero_of_mem_ne (a := 0.8) (b := 0.3)
      (by simp [column, X_train]) (by simp [column, X_train]) (by norm_num)

lemma listMaxR_fftMag_replicate {n : ℕ} (hn : 0 < n) (c : ℝ) :
    listMaxR (fftMag (List.replicate n c)) = (n : ℝ) * |c| := by
  rw [fftMag_replicate hn]
  exact listMaxR_cons_of_le (fun y hy => by
    rw [List.eq_of_mem_replicate hy]
    positivity)

lemma meanR_fftMag_replicate {n : ℕ} (hn : 0 < n) (c : ℝ) :
    meanR (fftMag (List.replicate n c)) = |c| := by
  rw [fftMag_replicate hn]
  unfold meanR
  rw [List.sum_cons, List.sum_replicate, smul_zero, add_zero,
    List.length_cons, List.length_replicate, Nat.sub_add_cancel hn,
    mul_div_cancel_left₀ _ (Nat.cast_ne_zero.mpr hn.ne' : (n : ℝ) ≠ 0)]

lemma ratio_replicate {n : ℕ} (hn : 0 < n) {c : ℝ} (hc : c ≠ 0) :
    peak_to_mean_spectral_ratio (List.replicate n c) = some (n : ℝ) := by
  have habs : |c| ≠ 0 := abs_ne_zero.mpr hc
  unfold peak_to_mean_spectral_ratio
  rw [listMaxR_fftMag_replicate hn, meanR_fftMag_replicate hn, pyDiv,
    if_neg habs, mul_div_assoc, div_self habs, mul_one]

lemma listMaxR_nonneg {l : List ℝ} (h : ∀ x ∈ l, 0 ≤ x) : 0 ≤ listMaxR l := by
  rcases l with _ | ⟨x, xs⟩
  · exact le_refl 0
  · exact le_trans (h x (List.mem_cons_self x xs)) (le_foldl_max xs x)

lemma foldl_max_le_add_sum :
    ∀ (l : List ℝ) (a : ℝ), 0 ≤ a → (∀ x ∈ l, 0 ≤ x) →
      l.foldl max a ≤ a + l.sum := by
  intro l
  induction l with
  | nil => intro a _ _; simp
  | cons x xs ih =>
    intro a ha h
    have hx : 0 ≤ x := h x (List.mem_cons_self x xs)
    have hmax : 0 ≤ max a x := le_trans ha (le_max_left a x)
    calc (x :: xs).foldl max a = xs.foldl max (max a x) := by rw [List.foldl_cons]
      _ ≤ max a x + xs.sum := ih (max a x) hmax (fun y hy => h y (List.mem_cons_of_mem x hy))
      _ ≤ (a + x) + xs.sum := by
          have : max a x ≤ a + x := max_le (by linarith) (by linarith)
          linarith
      _ = a + (x :: xs).sum := by rw [List.sum_cons]; ring

lemma listMaxR_le_sum {l : List ℝ} (h : ∀ x ∈ l, 0 ≤ x) : listMaxR l ≤ l.sum := by
  rcases l with _ | ⟨x, xs⟩
  · simp [listMaxR]
  · have := foldl_max_le_add_sum xs x (h x (List.mem_cons_self x xs))
      (fun y hy => h y (List.mem_cons_of_mem x hy))
    rw [listMaxR, List.sum_cons]
    exact this

lemma predict_from_proba_ne_nil {classes : List String} {probs : List ℝ}
    (h : probs ≠ []) :
    predict_from_proba classes probs =
      (classes[argmaxIdx probs]?).map
        (fun lab => (lab, probs.getD (argmaxIdx probs) 0 * 100)) := by
  rcases probs with _ | ⟨p, ps⟩
  · exact absurd rfl h
  · rfl

/-!
Concrete tables used by the claims.
-/

/-- A validated 5-row, 1-column table. -/
def tblC1w : RawTable := [[some 2], [some 3], [some 4], [some 5], [some 6]]

/-- A validated table whose first row contains a NaN cell next to a numeric
one; its second column is entirely numeric. -/
def tblC1c : RawTable :=
  [[none, some 1], [some 1, some 1], [some 1, some 1], [some 1, some 1],
   [some 1, some 1]]

/-- A validated 5-row, 1-column table whose signal has a single sample. -/
def tblC2c : RawTable := [[some 3], [some 1], [some 1], [some 1], [some 1]]

/-- The spec §8 scenario table: 2 rows, hence fewer than 5. -/
def tblC4w : RawTable :=
  [[some 1, some 2, some 3, some 4, some 5],
   [some 0, some 0, some 0, some 0, some 0]]

/-- C1 (amended).  For every RawTable accepted by validation, `process_signal`
produces an amplitude whose numeric (non-NaN) values all lie in `[-1, 1]`;
the peak is `max(|nanmax|, |nanmin|)` and division happens only when it is
positive.  (The claim as frozen also asserts the bound for NaN cells of the
first row, which is refuted by `C1_counterexample`.) -/
theorem C1_valid_table_amplitude_bounded (df : RawTable)
    (_hv : (validate_csv df).1 = true) :
    ∀ q : ℚ, some q ∈ (process_signal df).amplitude → -1 ≤ q ∧ q ≤ 1 :=
  fun _ hq => process_signal_amplitude_bounded df hq

/-- Witness for C1 at a concrete validated table. -/
theorem C1_valid_table_amplitude_bounded_witness :
    (validate_csv tblC1w).1 = true ∧
    (∀ q : ℚ, some q ∈ (process_signal tblC1w).amplitude → -1 ≤ q ∧ q ≤ 1) :=
  ⟨by norm_num [validate_csv, ncols, nanCount, tblC1w],
   C1_valid_table_amplitude_bounded tblC1w
     (by norm_num [validate_csv, ncols, nanCount, tblC1w])⟩

lemma process_signal_tblC1c :
    (process_signal tblC1c).amplitude = [none, some (1 : ℚ)] := by
  have hp : peakOf [none, some (1 : ℚ)] = some 1 := by
    norm_num [peakOf, nanMax, nanMin, numCells, List.filterMap_cons]
  rw [process_signal_amplitude]
  simp only [tblC1c, List.head?_cons, Option.getD_some]
  rw [hp]
  norm_num

/-- Counterexample to C1 as frozen: a table that passes validation and whose
second column is entirely numeric, yet whose processed amplitude is neither
inside `[-1, 1]` cell-by-cell (the first cell is NaN) nor all-zero. -/
theorem C1_counterexample :
    (validate_csv tblC1c).1 = true ∧
    (∀ r ∈ tblC1c, (r.getD 1 none).isSome = true) ∧
    ¬((∀ v ∈ (process_signal tblC1c).amplitude,
        ∃ q : ℚ, v = some q ∧ -1 ≤ q ∧ q ≤ 1) ∨
      (∀ v ∈ (process_signal tblC1c).amplitude, v = some 0)) := by
  refine ⟨?_, ?_, ?_⟩
  · norm_num [validate_csv, ncols, nanCount, tblC1c]
  · intro r hr
    simp only [tblC1c, List.mem_cons, List.not_mem_nil, or_false] at hr
    rcases hr with rfl | rfl | rfl | rfl | rfl <;> rfl
  · rintro (h | h)
    · have hmem : none ∈ (process_signal tblC1c).amplitude := by
        rw [process_signal_tblC1c]; simp
      obtain ⟨q, hq, -⟩ := h none hmem
      exact Option.noConfusion hq
    · have hmem : none ∈ (process_signal tblC1c).amplitude := by
        rw [process_signal_tblC1c]; simp
      exact Option.noConfusion (h none hmem)

/-- C2 (amended).  For every amplitude with at least 4 samples (so that the
positive-frequency slice `magnitude[1 : N//2]` is nonempty), extraction
succeeds and returns exactly 7 entries, in the fixed order
`[mean_amplitude, std_amplitude, dominant_frequency_index,
peak_to_mean_spectral_ratio, zero_crossing_rate, spectral_energy,
max_amplitude]`, with the dominant-frequency index computed as
`argmax(magnitude[1 : N//2]) + 1`.  (The claim as frozen quantifies over all
valid CanonicalSignals, and is refuted on signals shorter than 4 samples by
`C2_counterexample`.) -/
theorem C2_extract_seven_features {a : List ℝ} (h : 4 ≤ a.length) :
    extract_features a =
      some [some (mean_amplitude a), some (std_amplitude a),
        some ((dominant_frequency_index a : ℕ) : ℝ),
        peak_to_mean_spectral_ratio a, zero_crossing_rate a,
        some (spectral_energy a), some (max_amplitude a)] ∧
    (∀ fs, extract_features a = some fs → fs.length = 7) ∧
    dominant_frequency_index a =
      argmaxIdx (((fftMag a).drop 1).take (a.length / 2 - 1)) + 1 := by
  refine ⟨?_, ?_, rfl⟩
  · rw [extract_features_eq h]
    rfl
  · intro fs hfs
    rw [extract_features_eq h] at hfs
    simp only [Option.some.injEq] at hfs
    rw [← hfs]
    rfl

/-- Witness for C2 at a concrete 4-sample amplitude. -/
theorem C2_extract_seven_features_witness :
    4 ≤ ([1, -1, 1, -1] : List ℝ).length ∧
    (extract_features [1, -1, 1, -1] =
      some [some (mean_amplitude [1, -1, 1, -1]),
        some (std_amplitude [1, -1, 1, -1]),
        some ((dominant_frequency_index [1, -1, 1, -1] : ℕ) : ℝ),
        peak_to_mean_spectral_ratio [1, -1, 1, -1],
        zero_crossing_rate [1, -1, 1, -1],
        some (spectral_energy [1, -1, 1, -1]),
        some (max_amplitude [1, -1, 1, -1])] ∧
    (∀ fs, extract_features [1, -1, 1, -1] = some fs → fs.length = 7) ∧
    dominant_frequency_index [1, -1, 1, -1] =
      argmaxIdx (((fftMag [1, -1, 1, -1]).drop 1).take
        (([1, -1, 1, -1] : List ℝ).length / 2 - 1)) + 1) :=
  ⟨by norm_num, C2_extract_seven_features (by norm_num)⟩

/-- Counterexample to C2 as frozen: a table that passes validation yields a
valid one-sample CanonicalSignal on which extraction fails (numpy's
`np.argmax` raises on the empty slice) instead of returning 7 features. -/
theorem C2_counterexample :
    validate_csv tblC2c = (true, "") ∧
    (process_signal tblC2c).amplitude = [some (1 : ℚ)] ∧
    ampToReal [some (1 : ℚ)] = some [(1 : ℝ)] ∧
    extract_features [(1 : ℝ)] = none := by
  refine ⟨?_, ?_, ?_, extract_features_short (by norm_num)⟩
  · norm_num [validate_csv, ncols, nanCount, tblC2c]
  · have hp : peakOf [some (3 : ℚ)] = some 3 := by
      norm_num [peakOf, nanMax, nanMin, numCells, List.filterMap_cons]
    rw [process_signal_amplitude]
    simp only [tblC2c, List.head?_cons, Option.getD_some]
    rw [hp]
    norm_num
  · simp [ampToReal]

/-- C3 (confirmed).  Whenever the classifier produces a nonempty per-class
probability vector that is nonnegative and sums to (exactly, hence
approximately) 1, the `predict_class` wrapper returns the class at the argmax
with confidence equal to the maximum probability times 100, which lies in
`[0, 100]`.  The probability-vector hypotheses model the spec's contract for
the scikit-learn forest (§4.4). -/
theorem C3_predict_class_confidence {classes : List String} {probs : List ℝ}
    (hne : probs ≠ []) (hlen : classes.length = probs.length)
    (hpos : ∀ p ∈ probs, 0 ≤ p) (hsum : probs.sum = 1) :
    ∃ lab : String,
      predict_from_proba classes probs = some (lab, listMaxR probs * 100) ∧
      classes[argmaxIdx probs]? = some lab ∧
      probs[argmaxIdx probs]? = some (listMaxR probs) ∧
      0 ≤ listMaxR probs * 100 ∧ listMaxR probs * 100 ≤ 100 := by
  have hidx : argmaxIdx probs < probs.length := argmaxIdx_lt_length hne
  have hgets := argmaxIdx_get hne
  have hlab : argmaxIdx probs < classes.length := by rw [hlen]; exact hidx
  have hmax0 : 0 ≤ listMaxR probs := listMaxR_nonneg hpos
  have hmax1 : listMaxR probs ≤ 1 := le_trans (listMaxR_le_sum hpos) (le_of_eq hsum)
  obtain ⟨lab, hlabeq⟩ : ∃ lab, classes[argmaxIdx probs]? = some lab := by
    rw [List.getElem?_eq_getElem hlab]
    exact ⟨_, rfl⟩
  refine ⟨lab, ?_, hlabeq, hgets, by linarith, by linarith⟩
  rw [predict_from_proba_ne_nil hne, hlabeq, Option.map_some']
  have hgetd : probs.getD (argmaxIdx probs) 0 = listMaxR probs := by
    rw [List.getD_eq_getElem?_getD, hgets, Option.getD_some]
  rw [hgetd]

/-- Witness for C3 at a concrete probability vector. -/
theorem C3_predict_class_confidence_witness :
    (([3 / 10, 7 / 10] : List ℝ) ≠ [] ∧
     (["bird", "drone"] : List String).length = ([3 / 10, 7 / 10] : List ℝ).length ∧
     (∀ p ∈ ([3 / 10, 7 / 10] : List ℝ), 0 ≤ p) ∧
     ([3 / 10, 7 / 10] : List ℝ).sum = 1) ∧
    (∃ lab : String,
      predict_from_proba ["bird", "drone"] [3 / 10, 7 / 10] =
        some (lab, listMaxR [3 / 10, 7 / 10] * 100) ∧
      (["bird", "drone"] : List String)[argmaxIdx [3 / 10, 7 / 10]]? = some lab ∧
      ([3 / 10, 7 / 10] : List ℝ)[argmaxIdx [3 / 10, 7 / 10]]? =
        some (listMaxR [3 / 10, 7 / 10]) ∧
      0 ≤ listMaxR [3 / 10, 7 / 10] * 100 ∧
      listMaxR [3 / 10, 7 / 10] * 100 ≤ 100) :=
  ⟨⟨by simp, by simp, by norm_num [List.forall_mem_cons], by norm_num⟩,
   C3_predict_class_confidence (by simp) (by simp)
     (by norm_num [List.forall_mem_cons]) (by norm_num)⟩

/-- C4 (amended).  Every nonempty RawTable with a nonempty first row and
fewer than 5 rows is rejected with exactly the too-few-data-points message;
an empty table is instead rejected with "The file is empty."
(`C4_counterexample`). -/
theorem C4_too_few_rows {df : RawTable} (h1 : df ≠ []) (h2 : df.length < 5)
    (h3 : df.head?.getD [] ≠ []) :
    validate_csv df =
      (false, "The file contains too few data points (minimum 5 required).") := by
  have hrows : 0 < df.length := List.length_pos.mpr h1
  have hcols : 0 < (df.head?.getD []).length := List.length_pos.mpr h3
  have hsz : df.length * ncols df ≠ 0 := by
    unfold ncols
    exact Nat.mul_ne_zero hrows.ne' hcols.ne'
  simp only [validate_csv]
  rw [if_neg hsz, if_pos h2]

/-- Witness for C4 at the spec §8 scenario table. -/
theorem C4_too_few_rows_witness :
    (tblC4w ≠ [] ∧ tblC4w.length < 5 ∧ tblC4w.head?.getD [] ≠ []) ∧
    validate_csv tblC4w =
      (false, "The file contains too few data points (minimum 5 required).") :=
  ⟨⟨by simp [tblC4w], by norm_num [tblC4w], by simp [tblC4w]⟩,
   C4_too_few_rows (by simp [tblC4w]) (by norm_num [tblC4w]) (by simp [tblC4w])⟩

/-- Counterexample to C4 as frozen: the empty table has fewer than 5 rows but
is rejected with the empty-file message, not the too-few-data-points one. -/
theorem C4_counterexample :
    (([] : RawTable).length < 5) ∧
    validate_csv [] = (false, "The file is empty.") ∧
    (validate_csv []).2 ≠
      "The file contains too few data points (minimum 5 required)." := by
  refine ⟨by norm_num, by norm_num [validate_csv, ncols], ?_⟩
  norm_num [validate_csv, ncols]
  decide

/-- C5 (code bug).  On an all-zero amplitude the spectrum mean is 0, the
peak-to-mean ratio is the NaN of `0 / 0`, that NaN passes unchanged through
the scaler's affine transform, and the pipeline then aborts with no result at
all (scikit-learn raises on non-finite input) — there is no fallback
confidence anywhere in the code, contrary to the spec's requirement. -/
theorem C5_zero_signal_nan_propagates
    (m0 m1 m2 m3 m4 m5 m6 s0 s1 s2 s3 s4 s5 s6 : ℝ)
    (proba : List ℝ → List ℝ) (classes : List String) :
    extract_features (List.replicate 6 (0 : ℝ)) =
      some [some 0, some 0, some 1, none, some 0, some 0, some 0] ∧
    transformOpt [m0, m1, m2, m3, m4, m5, m6] [s0, s1, s2, s3, s4, s5, s6]
        [some 0, some 0, some 1, none, some 0, some 0, some 0] =
      [some ((0 - m0) / s0), some ((0 - m1) / s1), some ((1 - m2) / s2), none,
       some ((0 - m4) / s4), some ((0 - m5) / s5), some ((0 - m6) / s6)] ∧
    predict_classS
        ⟨[m0, m1, m2, m3, m4, m5, m6], [s0, s1, s2, s3, s4, s5, s6],
          proba, classes⟩
        (List.replicate 6 (some (0 : ℚ))) = none := by
  have hext := extract_features_zero_signal (by norm_num : 4 ≤ 6)
  have htr : transformOpt [m0, m1, m2, m3, m4, m5, m6]
      [s0, s1, s2, s3, s4, s5, s6]
      [some 0, some 0, some 1, none, some 0, some 0, some 0] =
      [some ((0 - m0) / s0), some ((0 - m1) / s1), some ((1 - m2) / s2), none,
       some ((0 - m4) / s4), some ((0 - m5) / s5), some ((0 - m6) / s6)] := by
    simp [transformOpt, List.zip]
  refine ⟨hext, htr, ?_⟩
  have hamp : ampToReal (List.replicate 6 (some (0 : ℚ))) =
      some (List.replicate 6 (0 : ℝ)) := by
    simp [ampToReal, List.replicate]
  unfold predict_classS
  rw [hamp, Option.some_bind, hext, Option.some_bind, htr]
  simp [sequenceOpt]

/-- The first row of the spec §8 constant-row scenario. -/
def rowC6 : List Cell := [some 5, some 5, some 5, some 5, some 5, some 5]

/-- A validated table whose first row is the constant row `[5,5,5,5,5,5]`. -/
def tblC6 : RawTable :=
  [rowC6, List.replicate 6 (some 1), List.replicate 6 (some 1),
   List.replicate 6 (some 1), List.replicate 6 (some 1)]

lemma process_signal_tblC6 :
    (process_signal tblC6).amplitude = List.replicate 6 (some (1 : ℚ)) := by
  have hp : peakOf rowC6 = some 5 := by
    norm_num [peakOf, nanMax, nanMin, numCells, rowC6, List.filterMap_cons]
  rw [process_signal_amplitude]
  simp only [tblC6, List.head?_cons, Option.getD_some]
  rw [hp]
  norm_num [rowC6, List.replicate]

lemma ampToReal_ones :
    ampToReal (List.replicate 6 (some (1 : ℚ))) = some (List.replicate 6 (1 : ℝ)) := by
  simp [ampToReal, List.replicate]

/-- C6 (amended).  A constant amplitude of `n ≥ 4` equal samples `c ≠ 0`
yields `std_amplitude = 0` but a peak-to-mean spectral ratio of `n` (not
`1.0`: the spectrum is `n·|c|` at bin 0 and zero elsewhere, so the ratio is
`n·|c| / |c|`); the constant row `[5,5,5,5,5,5]` normalizes to all ones (not
all zeros: the peak is `5 > 0` and `5 / 5 = 1`), and no NaN appears in any
feature. -/
theorem C6_constant_amplitude_features {n : ℕ} {c : ℝ} (hn : 4 ≤ n)
    (hc : c ≠ 0) :
    std_amplitude (List.replicate n c) = 0 ∧
    peak_to_mean_spectral_ratio (List.replicate n c) = some (n : ℝ) ∧
    extract_features (List.replicate n c) =
      some [some c, some 0, some 1, some (n : ℝ), some 0, some 0, some c] ∧
    (process_signal tblC6).amplitude = List.replicate 6 (some (1 : ℚ)) ∧
    ampToReal (List.replicate 6 (some (1 : ℚ))) =
      some (List.replicate 6 (1 : ℝ)) :=
  ⟨stdR_replicate (by omega) c, ratio_replicate (by omega) hc,
   extract_features_replicate c hn hc, process_signal_tblC6, ampToReal_ones⟩

/-- Witness for C6 at the concrete normalized constant row. -/
theorem C6_constant_amplitude_features_witness :
    (4 ≤ 6 ∧ (1 : ℝ) ≠ 0) ∧
    (std_amplitude (List.replicate 6 (1 : ℝ)) = 0 ∧
     peak_to_mean_spectral_ratio (List.replicate 6 (1 : ℝ)) = some ((6 : ℕ) : ℝ) ∧
     extract_features (List.replicate 6 (1 : ℝ)) =
       some [some 1, some 0, some 1, some ((6 : ℕ) : ℝ), some 0, some 0, some 1] ∧
     (process_signal tblC6).amplitude = List.replicate 6 (some (1 : ℚ)) ∧
     ampToReal (List.replicate 6 (some (1 : ℚ))) =
       some (List.replicate 6 (1 : ℝ))) :=
  ⟨⟨by norm_num, by norm_num⟩,
   C6_constant_amplitude_features (by norm_num) (by norm_num)⟩

/-- Counterexample to C6 as frozen: the constant row `[5,5,5,5,5,5]`
normalizes to all ones, not all zeros, and its peak-to-mean spectral ratio is
`6`, not `1.0`. -/
theorem C6_counterexample :
    (process_signal tblC6).amplitude ≠ List.replicate 6 (some (0 : ℚ)) ∧
    peak_to_mean_spectral_ratio (List.replicate 6 (1 : ℝ)) = some 6 ∧
    (some (6 : ℝ) : Option ℝ) ≠ some 1 := by
  refine ⟨?_, ?_, by norm_num⟩
  · rw [process_signal_tblC6]
    simp [List.replicate]
  · have := ratio_replicate (n := 6) (by norm_num) (c := (1 : ℝ)) (by norm_num)
    simpa using this

/-- The square-wave amplitude row of spec §8, as table cells. -/
def ampSq : List Cell :=
  [some 1, some (-1), some 1, some (-1), some 1, some (-1), some 1, some (-1)]

/-- The square-wave amplitude as reals. -/
noncomputable def sqR : List ℝ := [1, -1, 1, -1, 1, -1, 1, -1]

/-- A table whose first row is the square wave. -/
def tblSq : RawTable :=
  [ampSq, List.replicate 8 (some 0), List.replicate 8 (some 0),
   List.replicate 8 (some 0), List.replicate 8 (some 0)]

lemma process_signal_tblSq : (process_signal tblSq).amplitude = ampSq := by
  have hp : peakOf ampSq = some 1 := by
    norm_num [peakOf, nanMax, nanMin, numCells, ampSq, List.filterMap_cons]
  rw [process_signal_amplitude]
  simp only [tblSq, List.head?_cons, Option.getD_some]
  rw [hp]
  norm_num [ampSq]

lemma ampToReal_ampSq : ampToReal ampSq = some sqR := by
  simp [ampToReal, ampSq, sqR]

lemma meanR_sqR : meanR sqR = 0 := by
  norm_num [meanR, sqR]

lemma zeroCross_sqR : zeroCross sqR = 6 := by
  have hd : diffR sqR = [-2, 2, -2, 2, -2, 2, -2] := by
    simp [diffR, sqR]
    norm_num
  rw [zeroCross, hd]
  norm_num [signbit, List.count_cons]

lemma zcrate_sqR : zero_crossing_rate sqR = some (3 / 4) := by
  unfold zero_crossing_rate
  rw [zeroCross_sqR, pyDiv, if_neg (by norm_num [sqR] : (sqR.length : ℝ) ≠ 0)]
  norm_num [sqR]

lemma maxAmp_sqR : max_amplitude sqR = 1 := by
  show listMaxR (1 :: [-1, 1, -1, 1, -1, 1, -1]) = 1
  apply listMaxR_cons_of_le
  intro y hy
  simp only [List.mem_cons, List.not_mem_nil, or_false] at hy
  rcases hy with rfl | rfl | rfl | rfl | rfl | rfl | rfl <;> norm_num

/-- C7 (amended).  The square-wave row `[1,-1,1,-1,1,-1,1,-1]` passes through
normalization unchanged (its peak is `1`); its mean amplitude is exactly `0`,
its maximum is exactly `1.0`, and its zero-crossing rate is exactly
`6 / 8 = 0.75` — the first difference has 7 entries of alternating sign, so
the strict sign-bit comparison counts 6 changes, divided by the length 8.
(The frozen claim's value `≈ 1.0` is refuted by `C7_counterexample`.) -/
theorem C7_square_wave_features :
    (process_signal tblSq).amplitude = ampSq ∧
    ampToReal ampSq = some sqR ∧
    mean_amplitude sqR = 0 ∧
    zero_crossing_rate sqR = some (3 / 4) ∧
    max_amplitude sqR = 1 :=
  ⟨process_signal_tblSq, ampToReal_ampSq, meanR_sqR, zcrate_sqR, maxAmp_sqR⟩

/-- Counterexample to C7 as frozen: the zero-crossing rate of the square wave
is `0.75`, which is not within `0.1` of the claimed `1.0`. -/
theorem C7_counterexample :
    zero_crossing_rate sqR = some (3 / 4) ∧
    ¬∃ z : ℝ, zero_crossing_rate sqR = some z ∧ |z - 1| < 1 / 10 := by
  refine ⟨zcrate_sqR, ?_⟩
  rintro ⟨z, hz, habs⟩
  rw [zcrate_sqR] at hz
  have hz' : z = 3 / 4 := (Option.some.inj hz).symm
  rw [hz'] at habs
  have h14 : |(3 : ℝ) / 4 - 1| = 1 / 4 := by
    rw [abs_sub_comm, abs_of_nonneg] <;> norm_num
  rw [h14] at habs
  linarith

/-- C8 (confirmed).  The classification service is deterministic and leaves
the process-wide model state untouched: running `classify` a second time on
the same input, with the state returned by the first run, yields the same
result, and the state after a run is the state before it. -/
theorem C8_classify_idempotent (s : ModelState) (df : RawTable) :
    (classify (classify s df).2 df).1 = (classify s df).1 ∧
    (classify s df).2 = s :=
  ⟨rfl, rfl⟩

/-- C9 (confirmed).  For every column of the bootstrap training set, the
standardized values `(x - mean) / std` have mean exactly 0, variance exactly
1 and standard deviation exactly 1 (every column of `X_train` has nonzero
variance, so the zero-std substitution never fires on it). -/
theorem C9_standard_scaling_identity {j : ℕ} (hj : j < 7) :
    meanR (standardize (column X_train j)) = 0 ∧
    varR (standardize (column X_train j)) = 1 ∧
    stdR (standardize (column X_train j)) = 1 := by
  have hne : column X_train j ≠ [] := by simp [column, X_train]
  have hv := X_train_col_var_ne_zero j hj
  exact ⟨meanR_standardize hne, varR_standardize_eq_one hne hv,
    stdR_standardize_eq_one hne hv⟩

/-- Witness for C9 at the first feature column. -/
theorem C9_standard_scaling_identity_witness :
    (0 : ℕ) < 7 ∧
    (meanR (standardize (column X_train 0)) = 0 ∧
     varR (standardize (column X_train 0)) = 1 ∧
     stdR (standardize (column X_train 0)) = 1) :=
  ⟨by norm_num, C9_standard_scaling_identity (by norm_num)⟩

/-- A validated 5-row table with a single column: its signal has one sample. -/
def tblC10 : RawTable := [[some 4], [some 2], [some 2], [some 2], [some 2]]

/-- C10 (confirmed).  Extraction fails (numpy's `np.argmax` raises on the
empty slice `magnitude[1 : N//2]`) on every amplitude with fewer than 3
samples, and validation — which bounds only the row count — accepts a 5-row,
1-column table whose signal has a single sample. -/
theorem C10_short_signal_extraction_raises :
    (∀ a : List ℝ, a.length < 3 → extract_features a = none) ∧
    validate_csv tblC10 = (true, "") ∧
    ncols tblC10 = 1 ∧
    (process_signal tblC10).amplitude.length = 1 := by
  refine ⟨fun a ha => extract_features_short (by omega), ?_, ?_, ?_⟩
  · norm_num [validate_csv, ncols, nanCount, tblC10]
  · norm_num [ncols, tblC10]
  · rw [process_signal_amplitude]
    split_ifs <;> simp [tblC10]

/-- Witness for C10 at a concrete two-sample amplitude. -/
theorem C10_short_signal_extraction_raises_witness :
    (([2, 3] : List ℝ).length < 3) ∧ extract_features [2, 3] = none :=
  ⟨by norm_num, C10_short_signal_extraction_raises.1 [2, 3] (by norm_num)⟩
